import Mathlib

/-!
Shallow embedding of the MRtrix3 MP-PCA denoising engine and its threading
support code, together with theorems checking the natural-language
specification against the source.

Embedded source files:
* `cmd/dwidenoise.cpp` — the `DenoisingFunctor` (window extraction,
  eigenvalue-threshold component selection, truncation, reconstruction)
  and the `run`/`usage` entry point;
* the threading translation unit (`MR::Thread::number_of_threads` and
  `MR::Thread::__Backend`).

Machine integers (`size_t`, `ssize_t`, `int`) are modelled as `Nat`/`Int`;
the `float` arithmetic of the denoiser is modelled over an arbitrary
`LinearOrderedField` (instantiated at `ℚ` for concrete evaluation), i.e. we
verify the exact-arithmetic algorithm the code implements.
-/

namespace MR

namespace Thread

/-- The three overridable sources consulted by `number_of_threads`, plus the
hardware fallback:
* `nthreadsOpt` — the parsed `-nthreads` command-line option
  (`App::get_options ("nthreads")`; `some v` when supplied);
* `env` — the `MRTRIX_NTHREADS` environment variable: `none` when unset,
  `some none` when set but not parseable as an unsigned integer
  (`to<size_t>` throws), `some (some v)` when it parses to `v`;
* `config` — the `NumberOfThreads` entry of the configuration file
  (`none` when the file has no such entry);
* `hardware` — `std::thread::hardware_concurrency()`. -/
structure ThreadSources where
  nthreadsOpt : Option Nat
  env : Option (Option Nat)
  config : Option Nat
  hardware : Nat

/-- `File::Config::get_int (key, default)`: the configuration entry when
present, the supplied default otherwise. -/
def configGetInt (entry : Option Nat) (dflt : Nat) : Nat :=
  entry.getD dflt

/-- `MR::Thread::number_of_threads`, as explicit state passing: the first
argument is the file-scope cache `__number_of_threads` (0 meaning "not yet
resolved", exactly as in the source, where the cache is consulted through
`if (__number_of_threads)`).  Returns the value together with the new cache
contents, or an error when the environment variable is present but
unparseable (the `to<size_t>` exception propagates before any assignment). -/
def number_of_threads (cache : Nat) (src : ThreadSources) :
    Except Unit (Nat × Nat) :=
  if cache ≠ 0 then .ok (cache, cache)
  else
    match src.nthreadsOpt with
    | some v => .ok (v, v)
    | none =>
      match src.env with
      | some (some v) => .ok (v, v)
      | some none => .error ()
      | none =>
        let v := configGetInt src.config src.hardware
        .ok (v, v)

/-- The process-wide diagnostic hooks (`print` and `report_to_user_func`
function pointers).  Function-pointer values are modelled by arbitrary types
`Fn` and `RFn`. -/
structure DiagFns (Fn RFn : Type) where
  print : Fn
  report_to_user_func : RFn

/-- The state of `MR::Thread::__Backend`: the current global hooks, the
recorded originals (`previous_print_func`, `previous_report_to_user_func`)
and the reference count. -/
structure BackendState (Fn RFn : Type) where
  fns : DiagFns Fn RFn
  previous_print_func : Fn
  previous_report_to_user_func : RFn
  refcount : Nat

/-- `__Backend::__Backend ()`: records the current globals in
`previous_print_func` / `previous_report_to_user_func` and installs the
mutex-serialized wrappers (`thread_print_func`, `thread_report_to_user_func`,
passed in as the opaque values `tp` and `tr`); the reference count starts
at 0. -/
def backendConstruct {Fn RFn : Type} (tp : Fn) (tr : RFn)
    (g : DiagFns Fn RFn) : BackendState Fn RFn :=
  { fns := ⟨tp, tr⟩
    previous_print_func := g.print
    previous_report_to_user_func := g.report_to_user_func
    refcount := 0 }

/-- `__Backend::~__Backend ()`: restores the recorded original hooks into the
globals. -/
def backendDestruct {Fn RFn : Type} (st : BackendState Fn RFn) :
    DiagFns Fn RFn :=
  ⟨st.previous_print_func, st.previous_report_to_user_func⟩

/-- The process state seen by the backend guard: the global diagnostic hooks
together with the (possibly absent) backend singleton `__Backend::backend`. -/
structure DiagWorld (Fn RFn : Type) where
  globals : DiagFns Fn RFn
  backend : Option (BackendState Fn RFn)

/-- Modelled from the spec: the reference-counting `acquire` discipline
(the refcount increment/decrement wrapper around the constructor and
destructor lives in `thread.h`, which is not among the provided sources; the
constructor and destructor it invokes on the 0→1 transition are embedded
above directly from the source).  On 0→1 the constructor runs (swapping the
hooks); otherwise only the count is bumped. -/
def backendAcquire {Fn RFn : Type} (tp : Fn) (tr : RFn)
    (w : DiagWorld Fn RFn) : DiagWorld Fn RFn :=
  match w.backend with
  | none =>
    let st := backendConstruct tp tr w.globals
    ⟨st.fns, some { st with refcount := 1 }⟩
  | some st => ⟨w.globals, some { st with refcount := st.refcount + 1 }⟩

/-- Modelled from the spec: the reference-counting `release` discipline; on
the 1→0 transition the destructor (embedded from the source) restores the
original hooks and the singleton is torn down. -/
def backendRelease {Fn RFn : Type} (w : DiagWorld Fn RFn) :
    DiagWorld Fn RFn :=
  match w.backend with
  | none => w
  | some st =>
    if st.refcount ≤ 1 then ⟨backendDestruct st, none⟩
    else ⟨w.globals, some { st with refcount := st.refcount - 1 }⟩

end Thread

end MR

namespace Dwidenoise

/-! ## The volume abstraction used by `DenoisingFunctor`

An `Image` is modelled by its three spatial sizes, its channel count
`m = dwi.size(3)`, and a total map from spatial indices to the channel
vector at that position (`dwi.row(3)` after positioning the three spatial
indices).  `is_out_of_bounds` checks the spatial indices against the sizes.
The sample type is an arbitrary type `F` (the code casts to `float`). -/

/-- The input volume: spatial sizes, channel count, and per-position channel
vectors. -/
structure Volume (F : Type) where
  nx : Int
  ny : Int
  nz : Int
  m : Nat
  data : Int → Int → Int → Fin m → F

/-- `! is_out_of_bounds (dwi)` restricted to the three spatial axes (the only
indices the window loop moves). -/
def Volume.inBounds {F : Type} (vol : Volume F) (x y z : Int) : Prop :=
  0 ≤ x ∧ x < vol.nx ∧ 0 ≤ y ∧ y < vol.ny ∧ 0 ≤ z ∧ z < vol.nz

instance {F : Type} (vol : Volume F) (x y z : Int) :
    Decidable (vol.inBounds x y z) :=
  inferInstanceAs (Decidable (_ ∧ _ ∧ _ ∧ _ ∧ _ ∧ _))

/-- The three spatial indices of the image cursor
(`dwi.index(0)`, `dwi.index(1)`, `dwi.index(2)`). -/
structure CursorState where
  i0 : Int
  i1 : Int
  i2 : Int

/-- The offsets visited by the triple loop of `load_data`, in loop order:
`index(2)` (z) is the outermost loop, `index(1)` (y) the middle one and
`index(0)` (x) the innermost one, each running from `-extent` to `extent`
inclusive.  The list position of an offset is the value the running column
counter `k` holds when that offset is visited. -/
def windowOffsets (extent : Nat) : List (Int × Int × Int) :=
  (List.range (2 * extent + 1)).flatMap fun (dz : ℕ) =>
    (List.range (2 * extent + 1)).flatMap fun (dy : ℕ) =>
      (List.range (2 * extent + 1)).map fun (dx : ℕ) =>
        ((dx : Int) - (extent : Int), (dy : Int) - (extent : Int),
          (dz : Int) - (extent : Int))

/-- The loop state of `load_data`: the image cursor, the running column
counter `k`, and the columns of the local matrix `X` (a total map from
column index to channel vector; `X.setZero()` makes the initial value the
zero vector everywhere). -/
structure LoadAcc (F : Type) (m : Nat) where
  cursor : CursorState
  k : Nat
  X : Nat → Fin m → F

/-- One iteration of the innermost loop body of `load_data`: position the
cursor at `centre + offset`; if the position is in bounds, store its channel
vector into column `k` of `X`; the counter `k` is incremented by the loop
header on every iteration, in bounds or not. -/
def loadStep {F : Type} (vol : Volume F) (centre : CursorState)
    (acc : LoadAcc F vol.m) (off : Int × Int × Int) : LoadAcc F vol.m :=
  let x := centre.i0 + off.1
  let y := centre.i1 + off.2.1
  let z := centre.i2 + off.2.2
  let X' : Nat → Fin vol.m → F :=
    if vol.inBounds x y z then
      fun k' => if k' = acc.k then vol.data x y z else acc.X k'
    else acc.X
  ⟨⟨x, y, z⟩, acc.k + 1, X'⟩

/-- `DenoisingFunctor::load_data`: records the centre position `pos`, zeroes
`X`, runs the triple loop over the window offsets, and finally resets the
three spatial indices of the cursor to `pos`. -/
def load_data {F : Type} [Zero F] (vol : Volume F) (cur : CursorState)
    (extent : Nat) : LoadAcc F vol.m :=
  let pos := cur
  let init : LoadAcc F vol.m := ⟨cur, 0, fun _ _ => (0 : F)⟩
  let final := (windowOffsets extent).foldl (loadStep vol pos) init
  { final with cursor := ⟨pos.i0, pos.i1, pos.i2⟩ }

/-- The channel vector the loop body would store for a given offset: the
volume data at `centre + offset` when in bounds, and the zero vector (the
column's initial `setZero` contents are left untouched) otherwise. -/
def colValue {F : Type} [Zero F] (vol : Volume F) (centre : CursorState)
    (off : Int × Int × Int) : Fin vol.m → F :=
  if vol.inBounds (centre.i0 + off.1) (centre.i1 + off.2.1)
      (centre.i2 + off.2.2) then
    vol.data (centre.i0 + off.1) (centre.i1 + off.2.1) (centre.i2 + off.2.2)
  else fun _ => 0

/-- Follows the spec's words, for comparison with `load_data` (refinement
check): a window extractor whose boundary policy is "columns skipped, not
zero-filled" — each in-bounds offset appends a column and out-of-volume
offsets contribute nothing, so the number of columns shrinks near edges. -/
def specExtractColumns {F : Type} (vol : Volume F) (centre : CursorState)
    (extent : Nat) : List (Fin vol.m → F) :=
  (windowOffsets extent).filterMap fun off =>
    if vol.inBounds (centre.i0 + off.1) (centre.i1 + off.2.1)
        (centre.i2 + off.2.2) then
      some (vol.data (centre.i0 + off.1) (centre.i1 + off.2.1)
        (centre.i2 + off.2.2))
    else none

/-! ## The per-voxel denoiser (`DenoisingFunctor::operator ()`)

The functor works in `float`; we embed the algorithm over an arbitrary
`LinearOrderedField` `F` (concrete evaluation happens at `F = ℚ`).  The
dimensions are `m = dwi.size(3)`, `n = size·size·size` and `r = min m n`.
The SVD is computed by the external Eigen library
(`Eigen::JacobiSVD`), so reconstruction facts are stated for any factors
`U`, `sv`, `V` satisfying the thin-SVD contract. -/

section Denoiser

variable {F : Type} [LinearOrderedField F]

/-- The reverse cumulative sum
`for (i = r; i != 0; --i) { cs += lam[i-1]; clam[i-1] = cs; }`:
`clam p = lam p + lam (p+1) + ... + lam (r-1)`, computed with `r - p` as
fuel. -/
def sumFrom (lam : ℕ → F) : ℕ → ℕ → F
  | _, 0 => 0
  | p, fuel + 1 => lam p + sumFrom lam (p + 1) fuel

/-- `clam[p]` for `p < r`. -/
def clam (r : ℕ) (lam : ℕ → F) (p : ℕ) : F :=
  sumFrom lam p (r - p)

/-- `gam = float(m-p) / float(n)` (the `size_t` subtraction `m - p` is
`Nat` subtraction; every use in the loop has `p < r ≤ m`). -/
def gam (m n p : ℕ) : F :=
  ((m - p : ℕ) : F) / (n : F)

/-- `sigsq1 = clam[p] / (r-p) / ((gam<1.0) ? 1.0 : gam)`. -/
def sigsq1 (m n r : ℕ) (lam : ℕ → F) (p : ℕ) : F :=
  clam r lam p / ((r - p : ℕ) : F) /
    (if gam m n p < (1 : F) then 1 else gam (F := F) m n p)

/-- The numerator of `sigsq2 = (lam[p] - lam[r-1]) / 4 / sqrt(gam)`. -/
def sigsq2Num (r : ℕ) (lam : ℕ → F) (p : ℕ) : F :=
  lam p - lam (r - 1)

/-- The loop's break condition `sigsq2 < sigsq1`, encoded without the square
root: for `d = lam[p] - lam[r-1] ≥ 0`, `sigsq1 ≥ 0` and `gam > 0` (which hold
for any singular-value spectrum), `d / 4 / sqrt gam < sigsq1` is equivalent to
`d² < 16·gam·sigsq1²` (the lemma `breakTest_iff_sqrt` below proves this
equivalence over `ℝ`). -/
def breakTest (m n r : ℕ) (lam : ℕ → F) (p : ℕ) : Bool :=
  decide ((sigsq2Num r lam p) ^ 2 <
    16 * gam m n p * (sigsq1 m n r lam p) ^ 2)

/-- The scan `for (p = 0; p < r; ++p) { ...; if (sigsq2 < sigsq1) break; }`,
with `r - p` as fuel: from index `p` with `fuel` iterations left, the first
index at which `breakTest` holds (or `p + fuel` when it never does). -/
def findPFrom (m n r : ℕ) (lam : ℕ → F) : ℕ → ℕ → ℕ
  | p, 0 => p
  | p, fuel + 1 =>
    if breakTest m n r lam p then p else findPFrom m n r lam (p + 1) fuel

/-- The value of `p` after the component-selection loop. -/
def selectP (m n r : ℕ) (lam : ℕ → F) : ℕ :=
  findPFrom m n r lam 0 r

/-- Follows the spec's words, for comparison with `breakTest` (refinement
check): the spec's stopping test fails at `σ₂² ≤ σ₁²`, i.e. the loop would
stop already at equality of the two estimators. -/
def specBreakTest (m n r : ℕ) (lam : ℕ → F) (p : ℕ) : Bool :=
  decide ((sigsq2Num r lam p) ^ 2 ≤
    16 * gam m n p * (sigsq1 m n r lam p) ^ 2)

/-- Follows the spec's words: the first `p` at which `σ₂² ≤ σ₁²`. -/
def specFindPFrom (m n r : ℕ) (lam : ℕ → F) : ℕ → ℕ → ℕ
  | p, 0 => p
  | p, fuel + 1 =>
    if specBreakTest m n r lam p then p
    else specFindPFrom m n r lam (p + 1) fuel

/-- Follows the spec's words: the signal/noise boundary per the spec's `≤`
stopping rule. -/
def specSelectP (m n r : ℕ) (lam : ℕ → F) : ℕ :=
  specFindPFrom m n r lam 0 r

/-- `s.tail(r-p).setZero()` as a map on the singular-value sequence: entries
at indices `≥ p` are zeroed, entries below `p` are kept. -/
def truncSing (s : ℕ → F) (p : ℕ) : ℕ → F :=
  fun i => if i < p then s i else 0

/-- `sigma = (p==r) ? NaN : std::sqrt (sigsq1)` with `p` the loop's final
index: the `NaN` sentinel is modelled as `none`, and `sigma` is represented
by its square (`some sigsq1`), since the square root stays inside the
field. -/
def sigmaSqResult (m n r : ℕ) (lam : ℕ → F) : Option F :=
  let p := selectP m n r lam
  if p = r then none else some (sigsq1 m n r lam p)

/-- `Xm = X.rowwise().mean()`. -/
def rowMean (m n : ℕ) (X : Matrix (Fin m) (Fin n) F) : Fin m → F :=
  fun i => (∑ j, X i j) / (n : F)

/-- `X.colwise() -= Xm`. -/
def centered (m n : ℕ) (X : Matrix (Fin m) (Fin n) F) :
    Matrix (Fin m) (Fin n) F :=
  fun i j => X i j - rowMean m n X i

/-- `lam = s.array().square() / n` on the `r` singular values (indices past
`r` read as 0; the loop only reads `lam[p]` and `lam[r-1]` with `p < r`). -/
def lamOf (n r : ℕ) (sv : Fin r → F) : ℕ → F :=
  fun i => if h : i < r then (sv ⟨i, h⟩) ^ 2 / (n : F) else 0

/-- Lines 79–100 of `operator ()` applied to given thin-SVD factors of the
centred matrix: form `lam`, run the selection loop, zero the trailing
`r - p` singular values, reconstruct `U · S · Vᵗ` and add `Xm` back. -/
def denoised (m n r : ℕ) (X : Matrix (Fin m) (Fin n) F)
    (U : Matrix (Fin m) (Fin r) F) (sv : Fin r → F)
    (V : Matrix (Fin n) (Fin r) F) : Matrix (Fin m) (Fin n) F :=
  let p := selectP m n r (lamOf n r sv)
  let sTrunc : Fin r → F := fun i => if (i : ℕ) < p then sv i else 0
  fun i j =>
    (U * Matrix.diagonal sTrunc * V.transpose) i j + rowMean m n X i

/-- `out.row(3) = X.col(n/2)`: the column of the window's centre sample.
The guard `n / 2 < n` (i.e. `n > 0`) keeps the definition total; the functor
always has `n = size³ ≥ 1` for a supplied window size `≥ 1`. -/
def centreColumn (m n : ℕ) (M : Matrix (Fin m) (Fin n) F) : Fin m → F :=
  fun i => if h : n / 2 < n then M i ⟨n / 2, h⟩ else 0

end Denoiser

/-! ## The entry point (`usage ()` and `run ()`) -/

/-- `#define DEFAULT_SIZE 5`. -/
def DEFAULT_SIZE : Int := 5

/-- Modelled from the spec: the semantics of `Argument::type_integer (lo,
hi)` — "the caller-facing option additionally restricts it to a bounded
range" — whose checking code lives outside the provided sources.  In
`usage ()` the "window" argument of the "size" option is declared
`type_integer (0, 50)`, so the accepted values are those in `[0, 50]`. -/
def sizeArgInRange (s : Int) : Prop :=
  0 ≤ s ∧ s ≤ 50

instance (s : Int) : Decidable (sizeArgInRange s) :=
  inferInstanceAs (Decidable (_ ∧ _))

/-- `get_option_value ("size", DEFAULT_SIZE)` in `run ()`: the supplied
option value, or `DEFAULT_SIZE` when the option is absent. -/
def get_option_value (supplied : Option Int) : Int :=
  supplied.getD DEFAULT_SIZE

/-- `extent (size/2)` in the `DenoisingFunctor` constructor (C++ `int`
division truncates toward zero; `Int.tdiv` is the truncating division). -/
def functorExtent (size : Int) : Int :=
  Int.tdiv size 2

/-- `n (size*size*size)` in the `DenoisingFunctor` constructor. -/
def functorN (size : Int) : Int :=
  size * size * size

/-! ## Concrete inputs used by counterexamples and witnesses -/

/-- A 1×1×1 single-channel volume whose one voxel holds the channel vector
`(5)`: a volume corner in every direction. -/
def exVol : Volume Int :=
  ⟨1, 1, 1, 1, fun _ _ _ _ => 5⟩

/-- The eigenvalue spectrum `(1, 0, 0, 0)` (descending, non-negative), on
which the two estimators are exactly equal at `p = 0` when `m = n = r = 4`:
`σ₁² = 1/4 = σ₂²`. -/
def exLam : ℕ → ℚ :=
  fun i => if i = 0 then 1 else 0

end Dwidenoise

/-! # Helper lemmas -/

namespace Dwidenoise

section SelectLemmas

variable {F : Type} [LinearOrderedField F]

/-- The loop index never moves backwards. -/
theorem findPFrom_ge (m n r : ℕ) (lam : ℕ → F) (p fuel : ℕ) :
    p ≤ findPFrom m n r lam p fuel := by
  induction fuel generalizing p with
  | zero => simp [findPFrom]
  | succ f ih =>
    simp only [findPFrom]
    split
    · exact le_refl p
    · exact le_trans (Nat.le_succ p) (ih (p + 1))

/-- The loop index never exceeds `p + fuel` (the loop bound `r`). -/
theorem findPFrom_le_add (m n r : ℕ) (lam : ℕ → F) (p fuel : ℕ) :
    findPFrom m n r lam p fuel ≤ p + fuel := by
  induction fuel generalizing p with
  | zero => simp [findPFrom]
  | succ f ih =>
    simp only [findPFrom]
    split
    · omega
    · have := ih (p + 1)
      omega

/-- Every index scanned before the final one fails the break test. -/
theorem findPFrom_not_break (m n r : ℕ) (lam : ℕ → F) (p fuel q : ℕ)
    (hpq : p ≤ q) (hq : q < findPFrom m n r lam p fuel) :
    breakTest m n r lam q = false := by
  induction fuel generalizing p with
  | zero =>
    simp only [findPFrom] at hq
    omega
  | succ f ih =>
    simp only [findPFrom] at hq
    by_cases hb : breakTest m n r lam p = true
    · rw [if_pos hb] at hq
      omega
    · rw [if_neg hb] at hq
      rcases Nat.eq_or_lt_of_le hpq with heq | hlt
      · subst heq
        exact Bool.not_eq_true _ ▸ (by simpa using hb)
      · exact ih (p + 1) hlt hq

/-- When the loop stops before exhausting its fuel, the break test holds at
the final index. -/
theorem findPFrom_breaks (m n r : ℕ) (lam : ℕ → F) (p fuel : ℕ)
    (h : findPFrom m n r lam p fuel < p + fuel) :
    breakTest m n r lam (findPFrom m n r lam p fuel) = true := by
  induction fuel generalizing p with
  | zero =>
    simp only [findPFrom] at h
    omega
  | succ f ih =>
    simp only [findPFrom] at h ⊢
    by_cases hb : breakTest m n r lam p = true
    · rw [if_pos hb] at h ⊢
      exact hb
    · rw [if_neg hb] at h ⊢
      exact ih (p + 1) (by omega)

/-- When the break test fails everywhere in range, the loop exhausts its
fuel. -/
theorem findPFrom_exhausts (m n r : ℕ) (lam : ℕ → F) (p fuel : ℕ)
    (h : ∀ q, p ≤ q → q < p + fuel → breakTest m n r lam q = false) :
    findPFrom m n r lam p fuel = p + fuel := by
  induction fuel generalizing p with
  | zero => simp [findPFrom]
  | succ f ih =>
    simp only [findPFrom]
    rw [if_neg]
    · have := ih (p + 1) (fun q hq hq' => h q (by omega) (by omega))
      omega
    · simp [h p le_rfl (by omega)]

end SelectLemmas

/-- The squared-comparison encoding of the break test agrees, over `ℝ`, with
the source's `sigsq2 < sigsq1` where `sigsq2 = (lam[p]-lam[r-1])/4/sqrt(gam)`,
under the sign conditions that hold for every singular-value spectrum
(`lam` non-increasing and non-negative on `[0, r)` gives `0 ≤ sigsq2Num` and
`0 ≤ sigsq1`, and `p < r ≤ m` with `n > 0` gives `0 < gam`). -/
theorem breakTest_iff_sqrt (m n r : ℕ) (lam : ℕ → ℝ) (p : ℕ)
    (hg : 0 < gam (F := ℝ) m n p) (hd : 0 ≤ sigsq2Num r lam p)
    (hs : 0 ≤ sigsq1 m n r lam p) :
    breakTest m n r lam p = true ↔
      sigsq2Num r lam p / 4 / Real.sqrt (gam m n p) <
        sigsq1 m n r lam p := by
  rw [breakTest, decide_eq_true_iff]
  have hsg : 0 < Real.sqrt (gam (F := ℝ) m n p) := Real.sqrt_pos.mpr hg
  rw [div_div, div_lt_iff₀ (by positivity)]
  rw [show (16 : ℝ) * gam m n p * sigsq1 m n r lam p ^ 2 =
        (sigsq1 m n r lam p * (4 * Real.sqrt (gam m n p))) ^ 2 from by
      rw [mul_pow, mul_pow, Real.sq_sqrt hg.le]; ring]
  exact pow_lt_pow_iff_left₀ hd (by positivity) two_ne_zero

section LoadLemmas

variable {F : Type}

/-- Unfolding lemma: the counter after one loop iteration. -/
theorem loadStep_k (vol : Volume F) (c : CursorState)
    (acc : LoadAcc F vol.m) (off : Int × Int × Int) :
    (loadStep vol c acc off).k = acc.k + 1 :=
  rfl

/-- Unfolding lemma: the matrix columns after one loop iteration. -/
theorem loadStep_X (vol : Volume F) (c : CursorState)
    (acc : LoadAcc F vol.m) (off : Int × Int × Int) (j : ℕ) :
    (loadStep vol c acc off).X j =
      if vol.inBounds (c.i0 + off.1) (c.i1 + off.2.1) (c.i2 + off.2.2) then
        (if j = acc.k then
          vol.data (c.i0 + off.1) (c.i1 + off.2.1) (c.i2 + off.2.2)
        else acc.X j)
      else acc.X j := by
  simp only [loadStep, ite_apply]

/-- The column counter advances once per visited offset, in or out of
bounds. -/
theorem foldl_loadStep_k (vol : Volume F) (c : CursorState)
    (l : List (Int × Int × Int)) (acc : LoadAcc F vol.m) :
    (l.foldl (loadStep vol c) acc).k = acc.k + l.length := by
  induction l generalizing acc with
  | nil => simp
  | cons o t ih =>
    rw [List.foldl_cons, ih, loadStep_k, List.length_cons]
    omega

/-- Columns below the current counter are never written again. -/
theorem foldl_loadStep_X_lt (vol : Volume F) (c : CursorState)
    (l : List (Int × Int × Int)) (acc : LoadAcc F vol.m)
    (j : ℕ) (hj : j < acc.k) :
    (l.foldl (loadStep vol c) acc).X j = acc.X j := by
  induction l generalizing acc with
  | nil => rfl
  | cons o t ih =>
    rw [List.foldl_cons]
    rw [ih (loadStep vol c acc o) (by rw [loadStep_k]; omega)]
    rw [loadStep_X]
    split
    · rw [if_neg (by omega)]
    · rfl

/-- The column written for the `i`-th offset of the remaining list is its
`colValue`: the channel vector when in bounds, the untouched zero initial
value otherwise. -/
theorem foldl_loadStep_X_get [Zero F] (vol : Volume F) (c : CursorState)
    (l : List (Int × Int × Int)) (acc : LoadAcc F vol.m)
    (hzero : ∀ j, acc.k ≤ j → acc.X j = fun _ => 0)
    (i : ℕ) (off : Int × Int × Int) (hoff : l.get? i = some off) :
    (l.foldl (loadStep vol c) acc).X (acc.k + i) = colValue vol c off := by
  induction l generalizing acc i with
  | nil => simp at hoff
  | cons o t ih =>
    cases i with
    | zero =>
      rw [List.get?_cons_zero, Option.some_inj] at hoff
      subst hoff
      rw [Nat.add_zero, List.foldl_cons,
        foldl_loadStep_X_lt vol c t (loadStep vol c acc o) acc.k
          (by rw [loadStep_k]; omega)]
      rw [loadStep_X, colValue]
      split
      · rw [if_pos rfl]
      · exact hzero acc.k le_rfl
    | succ i' =>
      rw [List.get?_cons_succ] at hoff
      rw [List.foldl_cons]
      have hz' : ∀ j, (loadStep vol c acc o).k ≤ j →
          (loadStep vol c acc o).X j = fun _ => 0 := by
        intro j hjk
        rw [loadStep_k] at hjk
        rw [loadStep_X]
        split
        · rw [if_neg (by omega)]
          exact hzero j (by omega)
        · exact hzero j (by omega)
      have := ih (loadStep vol c acc o) hz' i' hoff
      rw [loadStep_k] at this
      rw [show acc.k + (i' + 1) = acc.k + 1 + i' from by omega]
      exact this

/-- The fold only reads volume data at in-bounds positions: two volumes with
the same geometry that agree on every in-bounds position produce the same
matrix and counter. -/
theorem foldl_loadStep_agree (vol : Volume F)
    (d₂ : Int → Int → Int → Fin vol.m → F)
    (hag : ∀ x y z, vol.inBounds x y z → vol.data x y z = d₂ x y z)
    (c : CursorState) (l : List (Int × Int × Int))
    (acc : LoadAcc F vol.m) :
    (l.foldl (loadStep vol c) acc).X =
      (l.foldl (loadStep { vol with data := d₂ } c) acc).X ∧
    (l.foldl (loadStep vol c) acc).k =
      (l.foldl (loadStep { vol with data := d₂ } c) acc).k := by
  induction l generalizing acc with
  | nil => exact ⟨rfl, rfl⟩
  | cons o t ih =>
    rw [List.foldl_cons, List.foldl_cons]
    have hstep : loadStep vol c acc o =
        loadStep { vol with data := d₂ } c acc o := by
      have hib : ({ vol with data := d₂ } : Volume F).inBounds (c.i0 + o.1)
            (c.i1 + o.2.1) (c.i2 + o.2.2) =
          vol.inBounds (c.i0 + o.1) (c.i1 + o.2.1) (c.i2 + o.2.2) := rfl
      simp only [loadStep, hib]
      by_cases hin :
          vol.inBounds (c.i0 + o.1) (c.i1 + o.2.1) (c.i2 + o.2.2)
      · rw [if_pos hin, if_pos hin, hag _ _ _ hin]
      · rw [if_neg hin, if_neg hin]
    rw [hstep]
    exact ih _

end LoadLemmas

section OffsetLemmas

/-- Length of a `flatMap` whose pieces all have the same length. -/
theorem length_flatMap_const {α β : Type} (f : α → List β) (c : ℕ)
    (hf : ∀ x, (f x).length = c) (l : List α) :
    (l.flatMap f).length = l.length * c := by
  induction l with
  | nil => simp
  | cons a t ih =>
    rw [List.flatMap_cons, List.length_append, hf, ih, List.length_cons]
    ring

/-- Indexing into a `flatMap` whose pieces all have the same length `c`:
position `i * c + j` lands at position `j` of the `i`-th piece. -/
theorem get?_flatMap_const {α β : Type} (f : α → List β) (c : ℕ)
    (hf : ∀ x, (f x).length = c) (l : List α) (i j : ℕ) (hj : j < c)
    (x : α) (hx : l.get? i = some x) :
    (l.flatMap f).get? (i * c + j) = (f x).get? j := by
  induction l generalizing i with
  | nil => simp at hx
  | cons a t ih =>
    cases i with
    | zero =>
      rw [List.get?_cons_zero, Option.some_inj] at hx
      subst hx
      rw [List.flatMap_cons, Nat.zero_mul, Nat.zero_add,
        List.get?_append (by rw [hf]; exact hj)]
    | succ i' =>
      rw [List.get?_cons_succ] at hx
      rw [List.flatMap_cons, List.get?_append_right (by rw [hf]; nlinarith)]
      rw [hf, show (i' + 1) * c + j - c = i' * c + j from by ring_nf; omega]
      exact ih i' hx

/-- The window loop visits exactly `(2·extent+1)³` offsets. -/
theorem windowOffsets_length (e : ℕ) :
    (windowOffsets e).length = (2 * e + 1) ^ 3 := by
  rw [windowOffsets]
  rw [length_flatMap_const
    (fun dz : ℕ => (List.range (2 * e + 1)).flatMap fun dy : ℕ =>
      (List.range (2 * e + 1)).map fun dx : ℕ =>
        ((dx : Int) - e, (dy : Int) - e, (dz : Int) - e))
    ((2 * e + 1) * (2 * e + 1))
    (fun dz => by
      rw [length_flatMap_const
        (fun dy : ℕ => (List.range (2 * e + 1)).map fun dx : ℕ =>
          ((dx : Int) - e, (dy : Int) - e, (dz : Int) - e))
        (2 * e + 1)
        (fun dy => by rw [List.length_map, List.length_range]),
        List.length_range])]
  rw [List.length_range]
  ring

/-- The offset at list position `e·(2e+1)² + e·(2e+1) + e` — the value of the
column counter when the loop visits the window's centre — is `(0, 0, 0)`. -/
theorem windowOffsets_get_centre (e : ℕ) :
    (windowOffsets e).get? (e * ((2 * e + 1) * (2 * e + 1)) +
        (e * (2 * e + 1) + e)) =
      some ((0 : Int), (0 : Int), (0 : Int)) := by
  rw [windowOffsets]
  rw [get?_flatMap_const
    (fun dz : ℕ => (List.range (2 * e + 1)).flatMap fun dy : ℕ =>
      (List.range (2 * e + 1)).map fun dx : ℕ =>
        ((dx : Int) - e, (dy : Int) - e, (dz : Int) - e))
    ((2 * e + 1) * (2 * e + 1))
    (fun dz => by
      rw [length_flatMap_const
        (fun dy : ℕ => (List.range (2 * e + 1)).map fun dx : ℕ =>
          ((dx : Int) - e, (dy : Int) - e, (dz : Int) - e))
        (2 * e + 1)
        (fun dy => by rw [List.length_map, List.length_range]),
        List.length_range])
    _ e (e * (2 * e + 1) + e)
    (by nlinarith)
    e (List.get?_range (by omega))]
  rw [get?_flatMap_const
    (fun dy : ℕ => (List.range (2 * e + 1)).map fun dx : ℕ =>
      ((dx : Int) - e, (dy : Int) - e, (e : Int) - e))
    (2 * e + 1)
    (fun dy => by rw [List.length_map, List.length_range])
    _ e e (by omega) e (List.get?_range (by omega))]
  rw [List.get?_map, List.get?_range (by omega)]
  simp

end OffsetLemmas

end Dwidenoise

/-! # Claim theorems -/

namespace MR.Thread

/-- **C4, counterexample.**  The claim says the command-line override is used
only "if present and > 0" and that "the value returned by every call is
always >= 1".  In the source, `if (opt.size())` uses the option value
unconditionally: with `-nthreads 0` supplied (and the environment variable
set to a parseable 7 that the claim says should then win), resolution from
the unresolved state returns 0 — the environment is never consulted and the
result is below 1. -/
theorem thread_count_order_cex :
    number_of_threads 0 ⟨some 0, some (some 7), none, 4⟩ = .ok (0, 0) ∧
    ¬ 1 ≤ (0 : ℕ) := by
  exact ⟨rfl, by decide⟩

/-- **C4, amended.**  Thread-count resolution from the unresolved state
consults its sources in the fixed order: the command-line override is used
whenever present (whatever its value, including 0); otherwise the
environment variable, whose unparseable presence is a configuration error;
otherwise the configuration value defaulting to the hardware concurrency.
The first present source wins; the returned value is whatever that source
yields, with no lower bound imposed. -/
theorem number_of_threads_resolution_order (s : ThreadSources) :
    (∀ v, s.nthreadsOpt = some v →
      number_of_threads 0 s = .ok (v, v)) ∧
    (s.nthreadsOpt = none → ∀ v, s.env = some (some v) →
      number_of_threads 0 s = .ok (v, v)) ∧
    (s.nthreadsOpt = none → s.env = some none →
      number_of_threads 0 s = .error ()) ∧
    (s.nthreadsOpt = none → s.env = none →
      number_of_threads 0 s =
        .ok (configGetInt s.config s.hardware,
          configGetInt s.config s.hardware)) := by
  refine ⟨?_, ?_, ?_, ?_⟩
  · intro v hv
    unfold number_of_threads
    rw [if_neg (by simp)]
    rw [hv]
  · intro h0 v hv
    unfold number_of_threads
    rw [if_neg (by simp)]
    rw [h0, hv]
  · intro h0 hv
    unfold number_of_threads
    rw [if_neg (by simp)]
    rw [h0, hv]
  · intro h0 hv
    unfold number_of_threads
    rw [if_neg (by simp)]
    rw [h0, hv]

/-- Witness for `number_of_threads_resolution_order` at a concrete source
configuration. -/
theorem number_of_threads_resolution_order_witness :
    number_of_threads 0 ⟨some 3, none, none, 4⟩ = .ok (3, 3) :=
  (number_of_threads_resolution_order ⟨some 3, none, none, 4⟩).1 3 rfl

/-- **C5, counterexample.**  The claim says every call after the first
successful resolution is a pure read of the cache, yielding equal results.
A first call with `-nthreads 0` resolves to 0, which the cache check
`if (__number_of_threads)` cannot distinguish from "unresolved": a second
call (here with the environment variable meanwhile set to 7) re-consults the
sources and returns a different value. -/
theorem thread_count_cache_cex :
    number_of_threads 0 ⟨some 0, none, none, 4⟩ = .ok (0, 0) ∧
    number_of_threads 0 ⟨none, some (some 7), none, 4⟩ = .ok (7, 7) ∧
    (0 : ℕ) ≠ 7 := by
  exact ⟨rfl, rfl, by decide⟩

/-- **C5, amended.**  After a first resolution that yields a *nonzero*
value, every subsequent call returns that same cached value without
consulting any source (the second call's result is independent of the
sources supplied to it); a resolution yielding 0 is not recognisably cached
and later calls resolve afresh. -/
theorem number_of_threads_cached_nonzero (a b : ThreadSources) (v c : ℕ)
    (h : number_of_threads 0 a = .ok (v, c)) (hv : v ≠ 0) :
    number_of_threads c b = .ok (v, c) := by
  have hvc : c = v := by
    unfold number_of_threads at h
    rw [if_neg (by simp)] at h
    split at h
    · simp only [Except.ok.injEq, Prod.mk.injEq] at h
      omega
    · split at h
      · simp only [Except.ok.injEq, Prod.mk.injEq] at h
        omega
      · simp at h
      · simp only [Except.ok.injEq, Prod.mk.injEq] at h
        omega
  subst hvc
  unfold number_of_threads
  rw [if_pos hv]

/-- Witness for `number_of_threads_cached_nonzero`: a first call resolving
to 3 from the command line, a second call with entirely different sources
still returns 3. -/
theorem number_of_threads_cached_nonzero_witness :
    number_of_threads 3 ⟨none, some (some 7), some 9, 4⟩ = .ok (3, 3) :=
  number_of_threads_cached_nonzero ⟨some 3, none, none, 4⟩
    ⟨none, some (some 7), some 9, 4⟩ 3 3 rfl (by decide)

/-- **C8.**  Acquiring the backend guard on the 0→1 transition installs the
serialized wrapper hooks and records the previous hooks; releasing the
matching reference (1→0) restores them, so the global diagnostic function
pointers after acquire-then-release are exactly the originals (round-trip
identity), and the singleton is torn down. -/
theorem backend_acquire_release_roundtrip {Fn RFn : Type} (tp : Fn)
    (tr : RFn) (g : DiagFns Fn RFn) :
    (backendAcquire tp tr ⟨g, none⟩).globals = ⟨tp, tr⟩ ∧
    ((backendAcquire tp tr ⟨g, none⟩).backend.map fun st =>
      (st.previous_print_func, st.previous_report_to_user_func)) =
        some (g.print, g.report_to_user_func) ∧
    (backendRelease (backendAcquire tp tr ⟨g, none⟩)).globals = g ∧
    (backendRelease (backendAcquire tp tr ⟨g, none⟩)).backend = none := by
  exact ⟨rfl, rfl, rfl, rfl⟩

end MR.Thread

namespace Dwidenoise

/-- **C9.**  `load_data` restores the three spatial indices of the input
volume's cursor to the centre position `pos` once the window scan is done:
the trailing three assignments of the function overwrite whatever position
the triple loop left the cursor at. -/
theorem load_data_restores_cursor {F : Type} [Zero F] (vol : Volume F)
    (cur : CursorState) (extent : ℕ) :
    (load_data vol cur extent).cursor = cur :=
  rfl

/-- **C6, counterexample.**  The claim says a non-positive window size is a
configuration error and that odd window size is enforced.  The "window"
argument is declared `type_integer (0, 50)`: the non-positive size 0 lies
inside the declared range (so it is accepted, not rejected), and the even
size 4 is accepted as well — no oddness check exists anywhere in
`dwidenoise.cpp`. -/
theorem size_option_cex :
    sizeArgInRange 0 ∧ ¬ (0 : Int) > 0 ∧
    sizeArgInRange 4 ∧ (4 : Int) % 2 = 0 := by
  exact ⟨by constructor <;> decide, by decide, by constructor <;> decide,
    by decide⟩

/-- **C6, amended.**  The "size" option's argument is validated against the
declared bounded range `[0, 50]` (negative values are a configuration
error, but the non-positive value 0 is accepted); the window size defaults
to 5 when the option is absent; the functor's extent is `size / 2` by
truncating integer division; odd window size is not enforced (the even
value 4 also passes validation). -/
theorem size_option_validation :
    (∀ s : Int, sizeArgInRange s ↔ 0 ≤ s ∧ s ≤ 50) ∧
    (∀ s : Int, s < 0 → ¬ sizeArgInRange s) ∧
    sizeArgInRange 0 ∧
    get_option_value none = 5 ∧
    (∀ v : Int, get_option_value (some v) = v) ∧
    functorExtent 5 = 2 ∧ functorExtent 0 = 0 ∧
    sizeArgInRange 4 ∧ functorExtent 4 = 2 := by
  refine ⟨fun s => Iff.rfl, ?_, ?_, rfl, fun v => rfl, by decide, by decide,
    ?_, by decide⟩
  · intro s hs hrange
    exact absurd hrange.1 (by omega)
  · exact ⟨by decide, by decide⟩
  · exact ⟨by decide, by decide⟩

/-- Witness for `size_option_validation`: the negative size −1 is rejected
by the declared range. -/
theorem size_option_validation_witness :
    ¬ sizeArgInRange (-1) :=
  size_option_validation.2.1 (-1) (by decide)

/-- **C10.**  For an odd positive window size `s`, the triple loop with
`extent = s / 2` performs exactly `(2·(s/2)+1)³ = s³ = n` iterations — the
running column index `k` therefore stays below `n`, finishing at exactly
`n`, so every `X.col(k)` access is within the `n` allocated columns — and
the centre sample's offset `(0,0,0)` is visited when `k = n/2`, the column
the output stage reads back. -/
theorem window_column_access_in_range (s : ℕ) (hs : s % 2 = 1) :
    (windowOffsets (s / 2)).length = s ^ 3 ∧
    (∀ (vol : Volume Int) (cur : CursorState),
      (load_data vol cur (s / 2)).k = s ^ 3) ∧
    (windowOffsets (s / 2)).get? (s ^ 3 / 2) = some (0, 0, 0) := by
  have hc : s = 2 * (s / 2) + 1 := by omega
  have hlen : (windowOffsets (s / 2)).length = s ^ 3 := by
    rw [windowOffsets_length]
    rw [← hc]
  refine ⟨hlen, ?_, ?_⟩
  · intro vol cur
    show ((windowOffsets (s / 2)).foldl
        (loadStep vol ⟨cur.i0, cur.i1, cur.i2⟩) ⟨cur, 0, fun _ _ => 0⟩).k =
      s ^ 3
    rw [foldl_loadStep_k, hlen]
    simp
  · have hidx : s ^ 3 / 2 = s / 2 * (2 * (s / 2) + 1) * (2 * (s / 2) + 1) +
        (s / 2 * (2 * (s / 2) + 1) + s / 2) := by
      have h3 : s ^ 3 = 2 * (s / 2 * (2 * (s / 2) + 1) * (2 * (s / 2) + 1) +
          (s / 2 * (2 * (s / 2) + 1) + s / 2)) + 1 := by
        conv_lhs => rw [hc]
        ring
      omega
    have := windowOffsets_get_centre (s / 2)
    rw [hidx]
    rw [show s / 2 * (2 * (s / 2) + 1) * (2 * (s / 2) + 1) +
          (s / 2 * (2 * (s / 2) + 1) + s / 2) =
        s / 2 * ((2 * (s / 2) + 1) * (2 * (s / 2) + 1)) +
          (s / 2 * (2 * (s / 2) + 1) + s / 2) from by ring]
    exact this

/-- Witness for `window_column_access_in_range` at the window size 3. -/
theorem window_column_access_in_range_witness :
    (3 : ℕ) % 2 = 1 ∧
    (windowOffsets (3 / 2)).length = 3 ^ 3 ∧
    (windowOffsets (3 / 2)).get? (3 ^ 3 / 2) = some (0, 0, 0) :=
  ⟨by decide, (window_column_access_in_range 3 (by decide)).1,
    (window_column_access_in_range 3 (by decide)).2.2⟩

/-- **C1, counterexample.**  The claim says a column is appended *only* for
in-volume offsets, out-of-volume neighbours being skipped rather than
zero-filled, so that at a corner the matrix has strictly fewer than
`window_size³` columns.  In `load_data` the counter `k` is incremented in
the loop header on *every* iteration and only the assignment is guarded, so
on a 1×1×1 volume with extent 1 the loop still walks all 27 column slots:
the (only) in-bounds sample, the centre, lands in column 13 — not column 0
as a skipping extractor would put it — and column 0 is left at its `setZero`
value.  An extractor that follows the spec's words produces 1 column. -/
theorem load_data_zero_fill_cex :
    (specExtractColumns exVol ⟨0, 0, 0⟩ 1).length = 1 ∧
    (load_data exVol ⟨0, 0, 0⟩ 1).k = 27 ∧
    (load_data exVol ⟨0, 0, 0⟩ 1).X 0 ⟨0, Nat.one_pos⟩ = 0 ∧
    (load_data exVol ⟨0, 0, 0⟩ 1).X 13 ⟨0, Nat.one_pos⟩ = 5 := by
  refine ⟨by decide, by decide, by decide, by decide⟩

/-- **C1, amended.**  For every centre position and extent, the local matrix
filled by `load_data` has exactly `(2·extent+1)³` column slots (the counter
`k` advances once per offset, in or out of bounds); the column of an
in-volume offset holds that position's channel vector, while the column of
an out-of-volume offset is left zero (zero-filled, not skipped) — this is
what `colValue` says — and no out-of-bounds position is ever read: volumes
of the same geometry agreeing on all in-bounds positions yield identical
matrices. -/
theorem load_data_window_matrix (F : Type) [Zero F] (vol : Volume F)
    (cur : CursorState) (e : ℕ) :
    (load_data vol cur e).k = (2 * e + 1) ^ 3 ∧
    (∀ i off, (windowOffsets e).get? i = some off →
      (load_data vol cur e).X i = colValue vol cur off) ∧
    (∀ d₂ : Int → Int → Int → Fin vol.m → F,
      (∀ x y z, vol.inBounds x y z → vol.data x y z = d₂ x y z) →
      (load_data vol cur e).X =
        (load_data { vol with data := d₂ } cur e).X) := by
  refine ⟨?_, ?_, ?_⟩
  · show ((windowOffsets e).foldl (loadStep vol cur)
        ⟨cur, 0, fun _ _ => 0⟩).k = (2 * e + 1) ^ 3
    rw [foldl_loadStep_k, windowOffsets_length]
    simp
  · intro i off hoff
    show ((windowOffsets e).foldl (loadStep vol cur)
        ⟨cur, 0, fun _ _ => 0⟩).X i = colValue vol cur off
    have := foldl_loadStep_X_get vol cur (windowOffsets e)
      ⟨cur, 0, fun _ _ => 0⟩ (fun j _ => rfl) i off hoff
    rw [show (⟨cur, 0, fun _ _ => 0⟩ : LoadAcc F vol.m).k + i = i from
      by simp] at this
    exact this
  · intro d₂ hag
    exact (foldl_loadStep_agree vol d₂ hag cur (windowOffsets e)
      ⟨cur, 0, fun _ _ => 0⟩).1

/-- Witness for `load_data_window_matrix`, discharging its hypotheses on the
corner volume `exVol`: the centre column holds the sample, and replacing the
data outside the (single-voxel) bounds with different values leaves the
matrix unchanged. -/
theorem load_data_window_matrix_witness :
    (load_data exVol ⟨0, 0, 0⟩ 1).X 13 =
      colValue exVol ⟨0, 0, 0⟩ (0, 0, 0) ∧
    (load_data exVol ⟨0, 0, 0⟩ 1).X =
      (load_data { exVol with
        data := fun x y z _ =>
          if x = 0 ∧ y = 0 ∧ z = 0 then (5 : Int) else 6 } ⟨0, 0, 0⟩ 1).X := by
  constructor
  · exact (load_data_window_matrix Int exVol ⟨0, 0, 0⟩ 1).2.1 13 (0, 0, 0)
      (by decide)
  · refine (load_data_window_matrix Int exVol ⟨0, 0, 0⟩ 1).2.2 _ ?_
    intro x y z h
    obtain ⟨h1, h2, h3, h4, h5, h6⟩ := h
    have hb : exVol.nx = 1 ∧ exVol.ny = 1 ∧ exVol.nz = 1 := ⟨rfl, rfl, rfl⟩
    have hx : x = 0 := by omega
    have hy : y = 0 := by omega
    have hz : z = 0 := by omega
    subst hx; subst hy; subst hz
    funext ch
    simp [exVol]

/-- **C2, counterexample.**  The claim marks the boundary at the first `p`
with `σ₂² ≤ σ₁²`; the source breaks only on the strict `sigsq2 < sigsq1`.
On the spectrum `λ = (1,0,0,0)` with `m = n = r = 4` the estimators are
exactly equal at `p = 0` (`σ₁² = 1/4 = σ₂²`): the spec's rule stops at
`p = 0` (everything noise), while the code's loop never breaks and ends at
`p = r = 4` (everything signal). -/
theorem selection_boundary_cex :
    specSelectP 4 4 4 exLam = 0 ∧ selectP 4 4 4 exLam = 4 ∧
    specBreakTest 4 4 4 exLam 0 = true ∧
    breakTest 4 4 4 exLam 0 = false := by
  refine ⟨?_, ?_, ?_, ?_⟩
  · norm_num [specSelectP, specFindPFrom, specBreakTest, sigsq2Num, sigsq1,
      clam, sumFrom, gam, exLam]
  · norm_num [selectP, findPFrom, breakTest, sigsq2Num, sigsq1,
      clam, sumFrom, gam, exLam]
  · norm_num [specBreakTest, sigsq2Num, sigsq1, clam, sumFrom, gam, exLam]
  · norm_num [breakTest, sigsq2Num, sigsq1, clam, sumFrom, gam, exLam]

/-- **C2, amended.**  Scanning `p` ascending from 0, the loop's final index
`selectP` is the first `p < r` at which `σ₂² < σ₁²` holds *strictly* (at
equality the component is retained as signal and the scan continues), or `r`
when no such index exists; components `0..p-1` are retained as signal and
components `p..r-1` are zeroed by the truncation. -/
theorem selectP_first_strict {F : Type} [LinearOrderedField F]
    (m n r : ℕ) (lam : ℕ → F) (s : ℕ → F) :
    selectP m n r lam ≤ r ∧
    (∀ q, q < selectP m n r lam → breakTest m n r lam q = false) ∧
    (selectP m n r lam < r →
      breakTest m n r lam (selectP m n r lam) = true) ∧
    (∀ i, i < selectP m n r lam →
      truncSing s (selectP m n r lam) i = s i) ∧
    (∀ i, selectP m n r lam ≤ i →
      truncSing s (selectP m n r lam) i = 0) := by
  refine ⟨?_, ?_, ?_, ?_, ?_⟩
  · have := findPFrom_le_add m n r lam 0 r
    rw [selectP]
    omega
  · intro q hq
    exact findPFrom_not_break m n r lam 0 r q (Nat.zero_le q) hq
  · intro h
    exact findPFrom_breaks m n r lam 0 r (by rw [selectP] at h; omega)
  · intro i hi
    rw [truncSing, if_pos hi]
  · intro i hi
    rw [truncSing, if_neg (by omega)]

/-- Witness for `selectP_first_strict`: on the one-component spectrum
`λ = (1)` with `m = n = r = 1` the strict test fires at `p = 0`, so the
selected boundary is 0 and the single component is zeroed. -/
theorem selectP_first_strict_witness :
    breakTest 1 1 1 (fun _ => (1 : ℚ))
      (selectP 1 1 1 (fun _ => (1 : ℚ))) = true ∧
    truncSing (fun _ => (1 : ℚ)) (selectP 1 1 1 (fun _ => (1 : ℚ))) 0 = 0 := by
  have h := selectP_first_strict 1 1 1 (fun _ => (1 : ℚ)) (fun _ => (1 : ℚ))
  have hp : selectP 1 1 1 (fun _ => (1 : ℚ)) = 0 := by
    norm_num [selectP, findPFrom, breakTest, sigsq2Num, sigsq1, clam,
      sumFrom, gam]
  exact ⟨h.2.2.1 (by omega), h.2.2.2.2 0 (by omega)⟩

/-- **C3.**  If the stopping test never fires for any `p < r` the loop
exhausts: the result is degenerate — `sigma` is the undefined sentinel
(`none`, the model of `NaN`) and no singular value is zeroed (`s.tail(0)`
is empty, every index below `r` keeps its value).  Otherwise `sigma` is
`sqrt(sigsq1)` at the selected `p` (modelled by its square
`some (sigsq1 p)`). -/
theorem sigma_degenerate_or_selected {F : Type} [LinearOrderedField F]
    (m n r : ℕ) (lam : ℕ → F) (s : ℕ → F) :
    ((∀ q, q < r → breakTest m n r lam q = false) →
      sigmaSqResult m n r lam = none ∧
      selectP m n r lam = r ∧
      (∀ i, i < r → truncSing s (selectP m n r lam) i = s i)) ∧
    (selectP m n r lam < r →
      sigmaSqResult m n r lam =
        some (sigsq1 m n r lam (selectP m n r lam))) := by
  constructor
  · intro h
    have hsel : selectP m n r lam = r := by
      rw [selectP]
      have := findPFrom_exhausts m n r lam 0 r
        (fun q _ hq => h q (by omega))
      omega
    refine ⟨?_, hsel, ?_⟩
    · simp [sigmaSqResult, hsel]
    · intro i hi
      rw [truncSing, if_pos (by omega)]
  · intro h
    rw [sigmaSqResult]
    simp only [if_neg (by omega : ¬ selectP m n r lam = r)]

/-- Witness for `sigma_degenerate_or_selected`: the all-zero spectrum with
`m = n = r = 1` is degenerate (`sigma` undefined, the singular value kept);
the spectrum `λ = (1)` selects `p = 0` and reports `some (sigsq1 0)`. -/
theorem sigma_degenerate_or_selected_witness :
    (sigmaSqResult 1 1 1 (fun _ => (0 : ℚ)) = none ∧
      truncSing (fun _ => (9 : ℚ)) (selectP 1 1 1 (fun _ => (0 : ℚ))) 0 = 9) ∧
    sigmaSqResult 1 1 1 (fun _ => (1 : ℚ)) =
      some (sigsq1 1 1 1 (fun _ => (1 : ℚ)) (selectP 1 1 1 (fun _ => (1 : ℚ)))) := by
  constructor
  · have h := (sigma_degenerate_or_selected 1 1 1 (fun _ => (0 : ℚ))
      (fun _ => (9 : ℚ))).1 ?_
    · exact ⟨h.1, h.2.2 0 (by omega)⟩
    · intro q hq
      have : q = 0 := by omega
      subst this
      norm_num [breakTest, sigsq2Num, sigsq1, clam, sumFrom, gam]
  · refine (sigma_degenerate_or_selected 1 1 1 (fun _ => (1 : ℚ))
      (fun _ => (1 : ℚ))).2 ?_
    norm_num [selectP, findPFrom, breakTest, sigsq2Num, sigsq1, clam,
      sumFrom, gam]

/-- **C7.**  For a fully homogeneous window — every column of `X` equal to
the same channel vector `v` — the denoised centre value is exactly the
input: the row means are `v`, centring yields the zero matrix, any thin SVD
of it has all singular values zero (so truncation is immaterial), the
reconstruction is zero and adding the means back reproduces `v`. -/
theorem homogeneous_window_identity {F : Type} [LinearOrderedField F]
    (m n r : ℕ) (hn : 0 < n) (X : Matrix (Fin m) (Fin n) F)
    (v : Fin m → F) (hX : ∀ i j, X i j = v i)
    (U : Matrix (Fin m) (Fin r) F) (sv : Fin r → F)
    (V : Matrix (Fin n) (Fin r) F)
    (hsvd : centered m n X = U * Matrix.diagonal sv * V.transpose)
    (hU : U.transpose * U = 1) (hV : V.transpose * V = 1) :
    centreColumn m n (denoised m n r X U sv V) = v := by
  have hnF : ((n : ℕ) : F) ≠ 0 := Nat.cast_ne_zero.mpr (by omega)
  have hmean : rowMean m n X = v := by
    funext i
    rw [rowMean]
    simp only [hX]
    rw [Finset.sum_const, Finset.card_univ, Fintype.card_fin, nsmul_eq_mul]
    field_simp
  have hcent : centered m n X = 0 := by
    funext i j
    simp [centered, hX, hmean]
  have hD : Matrix.diagonal sv = 0 := by
    have h1 : U.transpose * (centered m n X) * V = Matrix.diagonal sv := by
      rw [hsvd]
      calc U.transpose * (U * Matrix.diagonal sv * V.transpose) * V
          = (U.transpose * U) * Matrix.diagonal sv * (V.transpose * V) := by
            simp only [Matrix.mul_assoc]
        _ = Matrix.diagonal sv := by
            rw [hU, hV, Matrix.one_mul, Matrix.mul_one]
    rw [hcent, Matrix.mul_zero, Matrix.zero_mul] at h1
    exact h1.symm
  have hsv : ∀ i, sv i = 0 := by
    intro i
    have := congrFun (congrFun hD i) i
    simpa [Matrix.diagonal] using this
  funext i
  rw [centreColumn]
  rw [dif_pos (Nat.div_lt_self hn one_lt_two)]
  simp only [denoised]
  have htr : (fun i : Fin r =>
      if (i : ℕ) < selectP m n r (lamOf n r sv) then sv i else 0) =
      (fun _ => (0 : F)) := by
    funext j
    split <;> simp [hsv]
  rw [htr]
  rw [show Matrix.diagonal (fun _ : Fin r => (0 : F)) = 0 from by
    simp [Matrix.diagonal_zero]]
  rw [Matrix.mul_zero, Matrix.zero_mul]
  simp [hmean]

/-- Witness for `homogeneous_window_identity`: the 1×1 window holding the
constant sample 2, with the thin SVD `U = V = 1`, `sv = 0` of its (zero)
centred matrix. -/
theorem homogeneous_window_identity_witness :
    centreColumn 1 1 (denoised 1 1 1 (fun _ _ => (2 : ℚ)) 1 (fun _ => 0) 1) =
      fun _ => (2 : ℚ) := by
  refine homogeneous_window_identity 1 1 1 (by omega)
    (fun _ _ => (2 : ℚ)) (fun _ => (2 : ℚ)) (fun i j => rfl)
    1 (fun _ => 0) 1 ?_ ?_ ?_
  · funext i j
    simp [centered, rowMean, Matrix.diagonal, Fin.sum_univ_one]
  · simp [Matrix.transpose_one, Matrix.mul_one]
  · simp [Matrix.transpose_one, Matrix.mul_one]

end Dwidenoise
